import Mathlib

/-!
Verification of the JCL/COBOL dependency-extraction scripts.

The definitions below are a shallow embedding of the four Python scripts:
  scripts/analyze_jcl_to_cobol.py        (PGM extraction, system-utility set, classification)
  scripts/generate_dependency_graph_json.py  (node/edge assembly from the mapping artifact)
  scripts/generate_graph_from_aggregated.py  (SELECT/ASSIGN extraction, OPEN-direction
                                              inference, graphviz node/edge emission)
  smojol-jcl/python/jcl_parser_wrapper.py    (error-dictionary wrapper)

Text is modelled as `List Char`; the regular expressions used by the scripts are
simple enough that their matching semantics are reproduced exactly by the
recursive scanners below (greedy maximal runs followed by mandatory whitespace
admit no successful backtracking, so maximal-run matching is faithful).
-/

/-- Python's `\s` whitespace class (ASCII part, which is all the scripts rely on). -/
def pySpace (c : Char) : Bool :=
  c = ' ' || c = '\t' || c = '\n' || c = '\r' || c = '\x0b' || c = '\x0c'

/-- Python's `\w` word-character class (ASCII part), used by the `\b` boundary. -/
def wordChar (c : Char) : Bool :=
  ('A' ≤ c && c ≤ 'Z') || ('a' ≤ c && c ≤ 'z') || ('0' ≤ c && c ≤ '9') || c = '_'

/-- Case-insensitive character comparison, as produced by `re.IGNORECASE`. -/
def ciEq (a b : Char) : Bool := a.toUpper = b.toUpper

/-- Consume a literal case-insensitively; return the remaining text on success. -/
def matchLitCI : List Char → List Char → Option (List Char)
  | [], s => some s
  | _ :: _, [] => none
  | l :: ls, c :: cs => if ciEq l c then matchLitCI ls cs else none

/-- Consume a literal case-sensitively; return the remaining text on success. -/
def matchLitCS : List Char → List Char → Option (List Char)
  | [], s => some s
  | _ :: _, [] => none
  | l :: ls, c :: cs => if l = c then matchLitCS ls cs else none

/-- Drop the maximal run of whitespace. -/
def dropSpaces : List Char → List Char
  | [] => []
  | c :: cs => if pySpace c then dropSpaces cs else c :: cs

/-- `\s+`: require at least one whitespace character, consume the maximal run. -/
def ws1 : List Char → Option (List Char)
  | [] => none
  | c :: cs => if pySpace c then some (dropSpaces cs) else none

/-- Maximal run of non-whitespace characters, with the rest of the text. -/
def takeNonWs : List Char → List Char × List Char
  | [] => ([], [])
  | c :: cs =>
    if pySpace c then ([], c :: cs)
    else
      let r := takeNonWs cs
      (c :: r.1, r.2)

/-- `(\S+)`: capture a nonempty maximal run of non-whitespace characters. -/
def nonWs1 : List Char → Option (List Char × List Char)
  | [] => none
  | c :: cs =>
    if pySpace c then none
    else
      let r := takeNonWs cs
      some (c :: r.1, r.2)

/-- Uppercase a captured token, as Python's `.upper()` does. -/
def upperStr (l : List Char) : String := String.mk (l.map Char.toUpper)

/-! ## scripts/analyze_jcl_to_cobol.py -/

/-- The character class `[A-Z0-9]` of the `PGM=([A-Z0-9]+)` pattern. -/
def pgmChar (c : Char) : Bool := ('A' ≤ c && c ≤ 'Z') || ('0' ≤ c && c ≤ '9')

/-- Maximal run of `[A-Z0-9]` characters, with the rest of the text. -/
def takePgmRun : List Char → List Char × List Char
  | [] => ([], [])
  | c :: cs =>
    if pgmChar c then
      let r := takePgmRun cs
      (c :: r.1, r.2)
    else ([], c :: cs)

/-- Try to match `PGM=([A-Z0-9]+)` at the head of the text (the pattern is
compiled without `re.IGNORECASE`, so matching is case-sensitive). -/
def matchPgmAt (s : List Char) : Option (String × List Char) :=
  match matchLitCS "PGM=".data s with
  | none => none
  | some r =>
    match r with
    | [] => none
    | c :: cs =>
      if pgmChar c then
        let run := takePgmRun cs
        some (String.mk (c :: run.1), run.2)
      else none

/-- `re.findall(r"PGM=([A-Z0-9]+)", text)`: scan left to right, emitting each
non-overlapping match's capture and resuming after the match. -/
def pgmScan : Nat → List Char → List String
  | 0, _ => []
  | _ + 1, [] => []
  | fuel + 1, c :: cs =>
    match matchPgmAt (c :: cs) with
    | some (p, rest) => p :: pgmScan fuel rest
    | none => pgmScan fuel cs

/-- `extract_pgm_from_jcl`: findall followed by `list(set(matches))` (the set is
represented by the duplicate-free list of first occurrences). -/
def extract_pgm_from_jcl (text : List Char) : List String :=
  (pgmScan text.length text).dedup

/-- The fixed set of the `is_system_program` function. -/
def system_programs : List String :=
  ["IEFBR14", "IDCAMS", "SORT", "SDSF", "IEBGENER", "IKJEFT01", "IKJEFT1B", "FTP", "DFHCSDUP"]

/-- `is_system_program`: membership in the fixed set. -/
def is_system_program (p : String) : Bool := system_programs.contains p

/-- Outcome of classifying one invocation identifier (the if/elif/else of the
per-program loop in `main`). -/
inductive Classification where
  | resolved
  | systemUtility
  | unresolved
  deriving DecidableEq

/-- The classification step of `main`: `if prog_upper in cobol_index: ...
elif is_system_program(prog_upper): ... else: ...`.  The COBOL index is the
dictionary built by `find_cobol_files`, modelled as an association list. -/
def classify_reference (index : List (String × String)) (prog : String) : Classification :=
  if (index.lookup prog).isSome then .resolved
  else if is_system_program prog then .systemUtility
  else .unresolved

/-! ## smojol-jcl/python/jcl_parser_wrapper.py -/

/-- A Python exception escaping the try-block of `parse_jcl_file`. -/
inductive PyExc where
  | fileNotFound
  | other (ty : String) (msg : String)
  deriving DecidableEq

/-- Behaviour of the try-block body (constructing the parser, reading the file
and parsing it): it either produces a parsed payload or raises. -/
inductive TryResult where
  | ok (jcl : String)
  | raises (e : PyExc)
  deriving DecidableEq

/-- The dictionary returned by `parse_jcl_file` (its `status` key is determined
by the constructor; `error` carries the error code and message). -/
inductive JclResult where
  | success (file : String) (jcl : String)
  | error (code : String) (msg : String)
  deriving DecidableEq

/-- `parse_jcl_file`: wrap the try-block outcome into a result dictionary;
`FileNotFoundError` maps to `FILE_NOT_FOUND`, every other exception to
`PARSING_ERROR`. -/
def parse_jcl_file (path : String) (body : TryResult) : JclResult :=
  match body with
  | .ok j => .success path j
  | .raises .fileNotFound => .error "FILE_NOT_FOUND" ("JCL file not found: " ++ path)
  | .raises (.other _ m) => .error "PARSING_ERROR" m

/-- The `"status"` key of the result dictionary. -/
def resultStatus : JclResult → String
  | .success _ _ => "success"
  | .error _ _ => "error"

/-- The `"error"` (code) key of the result dictionary, when present. -/
def resultCode : JclResult → Option String
  | .success _ _ => none
  | .error c _ => some c

/-- `main` of the wrapper: the printed result dictionary and the process exit
code (`sys.exit(0 if result["status"] == "success" else 1)`; fewer than two
argv entries short-circuits to an `INVALID_ARGUMENTS` error and exit 1). -/
def wrapper_main (argv : List String) (body : TryResult) : JclResult × Nat :=
  if argv.length < 2 then
    (.error "INVALID_ARGUMENTS" "Usage: python jcl_parser_wrapper.py <jcl_file_path>", 1)
  else
    let r := parse_jcl_file (argv.getD 1 "") body
    (r, if resultStatus r = "success" then 0 else 1)

/-! ## scripts/generate_dependency_graph_json.py -/

/-- A node of the JSON dependency graph (`id` and `type` fields). -/
structure DNode where
  id : String
  ty : String
  deriving DecidableEq

/-- An edge of the JSON dependency graph. -/
structure DEdge where
  src : String
  tgt : String
  rel : String
  deriving DecidableEq

/-- Python's `str.replace`: replace every non-overlapping occurrence of a
(nonempty) pattern, scanning left to right. -/
def replScan : Nat → List Char → List Char → List Char → List Char
  | 0, _, _, s => s
  | fuel + 1, pat, rep, s =>
    match s with
    | [] => []
    | c :: cs =>
      match matchLitCS pat s with
      | some rest => rep ++ replScan fuel pat rep rest
      | none => c :: replScan fuel pat rep cs

/-- `jcl_file.replace(".jcl", "").replace(".", "_")`: the id given to a JCL node. -/
def jclId (j : String) : String :=
  let s1 := replScan j.data.length ".jcl".data [] j.data
  String.mk (replScan s1.length ".".data "_".data s1)

/-- Inner loop over one program's `jcl_files`: insert the JCL node only when no
existing node (of any type) already carries its id, then always append the
`executes` edge. -/
def addJcls (prog : String) : List String → List DNode → List DEdge → List DNode × List DEdge
  | [], ns, es => (ns, es)
  | j :: rest, ns, es =>
    let jid := jclId j
    let ns1 := if ns.any (fun n => n.id == jid) then ns else ns ++ [⟨jid, "jcl"⟩]
    addJcls prog rest ns1 (es ++ [⟨jid, prog, "executes"⟩])

/-- Outer loop of `generate_dependency_graph` over the mapping artifact's
`cbl_files` entries: append a program node unconditionally, then process its
`jcl_files`. -/
def genDepAux : List (String × List String) → List DNode → List DEdge → List DNode × List DEdge
  | [], ns, es => (ns, es)
  | (p, jcls) :: rest, ns, es =>
    let ns1 := ns ++ [⟨p, "program"⟩]
    let r := addJcls p jcls ns1 es
    genDepAux rest r.1 r.2

/-- The node/edge lists built by `generate_dependency_graph` from the mapping
artifact (each entry is a program name with its list of JCL file names). -/
def generate_dependency_graph (cbl : List (String × List String)) : List DNode × List DEdge :=
  genDepAux cbl [] []

/-! ## scripts/generate_graph_from_aggregated.py -/

/-- Try to match `SELECT\s+(\S+)\s+ASSIGN\s+TO\s+(\S+)` (with `re.IGNORECASE`)
at the head of the text.  Returns the two captures uppercased (the script
applies `.upper()` to both groups) and the text remaining after the match. -/
def matchSelect (s : List Char) : Option (String × String × List Char) :=
  match matchLitCI "SELECT".data s with
  | none => none
  | some r1 =>
    match ws1 r1 with
    | none => none
    | some r2 =>
      match nonWs1 r2 with
      | none => none
      | some (nm, r3) =>
        match ws1 r3 with
        | none => none
        | some r4 =>
          match matchLitCI "ASSIGN".data r4 with
          | none => none
          | some r5 =>
            match ws1 r5 with
            | none => none
            | some r6 =>
              match matchLitCI "TO".data r6 with
              | none => none
              | some r7 =>
                match ws1 r7 with
                | none => none
                | some r8 =>
                  match nonWs1 r8 with
                  | none => none
                  | some (tgt, r9) => some (upperStr nm, upperStr tgt, r9)

/-- `re.finditer` over the SELECT pattern: scan left to right, collecting each
non-overlapping match (uppercased captures) together with the text that follows
the match (from which the property window is later carved). -/
def selectScan : Nat → List Char → List (String × String × List Char)
  | 0, _ => []
  | _ + 1, [] => []
  | fuel + 1, c :: cs =>
    match matchSelect (c :: cs) with
    | some (nm, tgt, rest) => (nm, tgt, rest) :: selectScan fuel rest
    | none => selectScan fuel cs

/-- Index of the first occurrence of the case-sensitive literal `SELECT`,
as computed by `text.find('SELECT', select_end)` restricted to the tail. -/
def findSelectIdx : List Char → Option Nat
  | [] => none
  | c :: cs =>
    if (matchLitCS "SELECT".data (c :: cs)).isSome then some 0
    else (findSelectIdx cs).map (· + 1)

/-- The property window of one declaration: the text after the match, cut at
the next occurrence of the case-sensitive literal `SELECT` (or all of it). -/
def sectionText (rest : List Char) : List Char :=
  match findSelectIdx rest with
  | some i => rest.take i
  | none => rest

/-- Try to match `ORGANIZATION\s+IS\s+(\S+)` (case-insensitive) at the head. -/
def matchOrgAt (s : List Char) : Option String :=
  match matchLitCI "ORGANIZATION".data s with
  | none => none
  | some r1 =>
    match ws1 r1 with
    | none => none
    | some r2 =>
      match matchLitCI "IS".data r2 with
      | none => none
      | some r3 =>
        match ws1 r3 with
        | none => none
        | some r4 =>
          match nonWs1 r4 with
          | none => none
          | some (v, _) => some (upperStr v)

/-- `re.search` of the organization pattern: first match anywhere in the window. -/
def searchOrg : List Char → Option String
  | [] => none
  | c :: cs =>
    match matchOrgAt (c :: cs) with
    | some v => some v
    | none => searchOrg cs

/-- Try to match `ACCESS\s+MODE\s+IS\s+(\S+)` (case-insensitive) at the head. -/
def matchAccessAt (s : List Char) : Option String :=
  match matchLitCI "ACCESS".data s with
  | none => none
  | some r1 =>
    match ws1 r1 with
    | none => none
    | some r2 =>
      match matchLitCI "MODE".data r2 with
      | none => none
      | some r3 =>
        match ws1 r3 with
        | none => none
        | some r4 =>
          match matchLitCI "IS".data r4 with
          | none => none
          | some r5 =>
            match ws1 r5 with
            | none => none
            | some r6 =>
              match nonWs1 r6 with
              | none => none
              | some (v, _) => some (upperStr v)

/-- `re.search` of the access-mode pattern: first match anywhere in the window. -/
def searchAccess : List Char → Option String
  | [] => none
  | c :: cs =>
    match matchAccessAt (c :: cs) with
    | some v => some v
    | none => searchAccess cs

/-- The per-file record built by `extract_files_from_cobol_text`. -/
structure FileInfo where
  assign_to : String
  organization : String
  access_mode : String
  deriving DecidableEq

/-- The value stored for one declaration: properties are searched in the window
following the match (up to the next case-sensitive `SELECT`), each defaulting
to `SEQUENTIAL` when absent. -/
def fileInfoOf (tgt : String) (rest : List Char) : FileInfo :=
  let w := sectionText rest
  { assign_to := tgt
    organization := (searchOrg w).getD "SEQUENTIAL"
    access_mode := (searchAccess w).getD "SEQUENTIAL" }

/-- Python dictionary insertion: overwrite the value in place when the key is
already present, otherwise append the new entry. -/
def dictInsert (k : String) (v : FileInfo) : List (String × FileInfo) → List (String × FileInfo)
  | [] => [(k, v)]
  | (k1, v1) :: t => if k1 = k then (k1, v) :: t else (k1, v1) :: dictInsert k v t

/-- `extract_files_from_cobol_text`: one dictionary entry per SELECT
declaration, keyed by the uppercased file name (last declaration wins). -/
def extract_files_from_cobol_text (text : List Char) : List (String × FileInfo) :=
  (selectScan text.length text).foldl (fun d m => dictInsert m.1 (fileInfoOf m.2.1 m.2.2) d) []

/-- Whether the character preceding the `\b` boundary (the interpolated file
name's last character) is a word character. -/
def lastIsWord (name : List Char) : Bool :=
  match name.getLast? with
  | some c => wordChar c
  | none => false

/-- Try to match `OPEN\s+<dir>\s+<name>\b` (case-insensitive) at the head. -/
def matchOpenAt (dir : List Char) (name : List Char) (s : List Char) : Bool :=
  match matchLitCI "OPEN".data s with
  | none => false
  | some r1 =>
    match ws1 r1 with
    | none => false
    | some r2 =>
      match matchLitCI dir r2 with
      | none => false
      | some r3 =>
        match ws1 r3 with
        | none => false
        | some r4 =>
          match matchLitCI name r4 with
          | none => false
          | some r5 =>
            let nextWord := match r5 with
              | [] => false
              | c :: _ => wordChar c
            lastIsWord name != nextWord

/-- `re.search` of the OPEN pattern over the whole program text. -/
def searchOpen (dir : List Char) (name : List Char) : List Char → Bool
  | [] => false
  | c :: cs => matchOpenAt dir name (c :: cs) || searchOpen dir name cs

/-- `extract_file_type_from_fd`: whole-text search for the three OPEN
directions, in the priority order INPUT, OUTPUT, EXTEND. -/
def extract_file_type_from_fd (text : List Char) (name : String) : String :=
  if searchOpen "INPUT".data name.data text then "INPUT"
  else if searchOpen "OUTPUT".data name.data text then "OUTPUT"
  else if searchOpen "EXTEND".data name.data text then "EXTEND"
  else "UNKNOWN"

/-- A graphviz node statement, identified by the node id handed to `node()`. -/
structure GNode where
  id : String
  deriving DecidableEq

/-- A graphviz edge statement (`edge()` call): source id, target id, label. -/
structure GEdge where
  src : String
  tgt : String
  lab : String
  deriving DecidableEq

/-- The extracted files the script appends to `input_files` (inferred
direction INPUT), in dictionary iteration order. -/
def inputFilesOf (cobolText : List Char) : List (String × FileInfo) :=
  (extract_files_from_cobol_text cobolText).filter
    (fun f => extract_file_type_from_fd cobolText f.1 == "INPUT")

/-- The extracted files the script appends to `output_files`. -/
def outputFilesOf (cobolText : List Char) : List (String × FileInfo) :=
  (extract_files_from_cobol_text cobolText).filter
    (fun f => extract_file_type_from_fd cobolText f.1 == "OUTPUT")

/-- The extracted files the script appends to `extend_files`. -/
def extendFilesOf (cobolText : List Char) : List (String × FileInfo) :=
  (extract_files_from_cobol_text cobolText).filter
    (fun f => extract_file_type_from_fd cobolText f.1 == "EXTEND")

/-- The node and edge statements emitted by `create_graph_from_aggregated_json`
for one aggregated document (program name, COBOL text, copybook list, optional
JCL execution context).  Files are partitioned by their inferred direction; a
file whose direction matches none of the three if/elif branches contributes
nothing.  Each copybook list entry contributes one node statement and one
`includes` edge statement; the JCL context contributes a single `JCL_JOB` node
and an `executes` edge. -/
def create_graph_from_aggregated_json (programName : String) (cobolText : List Char)
    (copybooks : List String) (jclJob : Option String) : List GNode × List GEdge :=
  let pgm := "PGM_" ++ programName
  let nodes :=
    [⟨pgm⟩] ++ (inputFilesOf cobolText).map (fun f => ⟨"FILE_IN_" ++ f.1⟩)
      ++ (outputFilesOf cobolText).map (fun f => ⟨"FILE_OUT_" ++ f.1⟩)
      ++ (extendFilesOf cobolText).map (fun f => ⟨"FILE_EXT_" ++ f.1⟩)
      ++ copybooks.map (fun c => ⟨"CPY_" ++ c⟩)
      ++ (match jclJob with | some _ => [⟨"JCL_JOB"⟩] | none => [])
  let edges :=
    (inputFilesOf cobolText).map (fun f => ⟨"FILE_IN_" ++ f.1, pgm, "READ"⟩)
      ++ (outputFilesOf cobolText).map (fun f => ⟨pgm, "FILE_OUT_" ++ f.1, "WRITE"⟩)
      ++ (extendFilesOf cobolText).map (fun f => ⟨pgm, "FILE_EXT_" ++ f.1, "EXTEND"⟩)
      ++ copybooks.map (fun c => ⟨"CPY_" ++ c, pgm, "includes"⟩)
      ++ (match jclJob with | some _ => [⟨"JCL_JOB", pgm, "executes"⟩] | none => [])
  (nodes, edges)

/-! ## Spec-described window variant (for comparison with the code) -/

/-- Follows the spec's words rather than the code, for comparison: the index of
the start of the next SELECT *declaration* — the next position at which the
case-insensitive declaration pattern itself matches. -/
def nextDeclIdx : Nat → List Char → Option Nat
  | 0, _ => none
  | _ + 1, [] => none
  | fuel + 1, c :: cs =>
    if (matchSelect (c :: cs)).isSome then some 0
    else (nextDeclIdx fuel cs).map (· + 1)

/-- Follows the spec's words rather than the code: the property window of a
declaration ends at the start of the next declaration (or the end of text). -/
def sectionTextSpec (rest : List Char) : List Char :=
  match nextDeclIdx rest.length rest with
  | some i => rest.take i
  | none => rest

/-- Follows the spec's words rather than the code: per-declaration record with
the properties searched only in the declaration-bounded window. -/
def fileInfoSpecOf (tgt : String) (rest : List Char) : FileInfo :=
  let w := sectionTextSpec rest
  { assign_to := tgt
    organization := (searchOrg w).getD "SEQUENTIAL"
    access_mode := (searchAccess w).getD "SEQUENTIAL" }

/-- Follows the spec's words rather than the code: extraction in which each
declaration's property window ends at the next declaration. -/
def extract_files_decl_window (text : List Char) : List (String × FileInfo) :=
  (selectScan text.length text).foldl (fun d m => dictInsert m.1 (fileInfoSpecOf m.2.1 m.2.2) d) []

/-! ## Helper predicates for graph well-formedness -/

/-- Some node in the list carries the given id. -/
def hasId (ns : List DNode) (i : String) : Prop := ∃ n ∈ ns, n.id = i

/-- Both endpoints of the edge are ids of nodes in the list. -/
def edgeOk (ns : List DNode) (e : DEdge) : Prop := hasId ns e.src ∧ hasId ns e.tgt

/-! ## Shared lemmas -/

/-- An association-list lookup succeeds exactly when the key occurs among the
keys of the list. -/
theorem lookup_isSome_iff_mem_keys (l : List (String × String)) (k : String) :
    (l.lookup k).isSome = true ↔ k ∈ l.map Prod.fst := by
  induction l with
  | nil => simp [List.lookup]
  | cons h t ih =>
    obtain ⟨k1, v1⟩ := h
    by_cases hk : k = k1
    · subst hk; simp [List.lookup]
    · have hb : (k == k1) = false := beq_eq_false_iff_ne.mpr hk
      rw [show List.lookup k ((k1, v1) :: t) = List.lookup k t from by simp [List.lookup, hb]]
      rw [ih]
      simp [hk]

/-- Two list appends differ when the prefixes differ at an index inside both. -/
theorem append_ne_of_getElem_ne (p q a b : List Char) (i : Nat)
    (hp : i < p.length) (hq : i < q.length) (hne : p[i]? ≠ q[i]?) :
    p ++ a ≠ q ++ b := by
  intro he
  apply hne
  rw [← List.getElem?_append_left hp, ← List.getElem?_append_left hq, he]

/-- Two string appends differ when the prefixes differ at an index inside both. -/
theorem str_append_ne_of_getElem_ne (p q a b : String) (i : Nat)
    (hp : i < p.data.length) (hq : i < q.data.length) (hne : p.data[i]? ≠ q.data[i]?) :
    p ++ a ≠ q ++ b := by
  intro he
  have h2 : p.data ++ a.data = q.data ++ b.data := congrArg String.data he
  exact append_ne_of_getElem_ne p.data q.data a.data b.data i hp hq hne h2

/-- String append is left-cancellative. -/
theorem str_append_left_cancel {s a b : String} (h : s ++ a = s ++ b) : a = b := by
  have h2 : s.data ++ a.data = s.data ++ b.data := congrArg String.data h
  have h3 := List.append_cancel_left h2
  cases a
  cases b
  simp_all

/-! ## C9: the fixed system-utility membership test -/

/-- C9: `is_system_program` is a deterministic membership test that returns
`true` for precisely the nine identifiers IEFBR14, IDCAMS, SORT, SDSF,
IEBGENER, IKJEFT01, IKJEFT1B, FTP and DFHCSDUP, and `false` for every other
string. -/
theorem is_system_program_iff (s : String) :
    is_system_program s = true ↔
      s = "IEFBR14" ∨ s = "IDCAMS" ∨ s = "SORT" ∨ s = "SDSF" ∨ s = "IEBGENER" ∨
        s = "IKJEFT01" ∨ s = "IKJEFT1B" ∨ s = "FTP" ∨ s = "DFHCSDUP" := by
  simp [is_system_program, system_programs]

/-! ## C3: classification totality and soundness -/

/-- C3: for every index and identifier the classification step assigns exactly
one of Resolved, SystemUtility, Unresolved; Resolved holds exactly when the
identifier is a key of the index, and SystemUtility exactly when the identifier
is absent from the index and belongs to the fixed utility set. -/
theorem classify_reference_total (index : List (String × String)) (prog : String) :
    (classify_reference index prog = .resolved ∨
      classify_reference index prog = .systemUtility ∨
      classify_reference index prog = .unresolved) ∧
    (classify_reference index prog = .resolved ↔ prog ∈ index.map Prod.fst) ∧
    (classify_reference index prog = .systemUtility ↔
      prog ∉ index.map Prod.fst ∧ is_system_program prog = true) ∧
    (classify_reference index prog = .unresolved ↔
      prog ∉ index.map Prod.fst ∧ is_system_program prog = false) := by
  unfold classify_reference
  by_cases h1 : (index.lookup prog).isSome = true
  · have hm : prog ∈ index.map Prod.fst := (lookup_isSome_iff_mem_keys index prog).mp h1
    simp [h1, hm]
  · have hm : prog ∉ index.map Prod.fst := fun hc =>
      h1 ((lookup_isSome_iff_mem_keys index prog).mpr hc)
    by_cases h2 : is_system_program prog = true
    · simp [h1, h2, hm]
    · simp [h1, h2, hm]

/-! ## C7: OPEN-direction inference priority -/

/-- C7: the inferred I/O direction searches the whole program text and is
decided by priority — INPUT wins over OUTPUT, which wins over EXTEND — and the
result is UNKNOWN exactly when no OPEN statement for the file name matches. -/
theorem extract_file_type_priority (text : List Char) (name : String) :
    (extract_file_type_from_fd text name = "INPUT" ↔
        searchOpen "INPUT".data name.data text = true) ∧
    (extract_file_type_from_fd text name = "OUTPUT" ↔
        searchOpen "INPUT".data name.data text = false ∧
        searchOpen "OUTPUT".data name.data text = true) ∧
    (extract_file_type_from_fd text name = "EXTEND" ↔
        searchOpen "INPUT".data name.data text = false ∧
        searchOpen "OUTPUT".data name.data text = false ∧
        searchOpen "EXTEND".data name.data text = true) ∧
    (extract_file_type_from_fd text name = "UNKNOWN" ↔
        searchOpen "INPUT".data name.data text = false ∧
        searchOpen "OUTPUT".data name.data text = false ∧
        searchOpen "EXTEND".data name.data text = false) := by
  unfold extract_file_type_from_fd
  by_cases h1 : searchOpen "INPUT".data name.data text = true <;>
    by_cases h2 : searchOpen "OUTPUT".data name.data text = true <;>
      by_cases h3 : searchOpen "EXTEND".data name.data text = true <;>
        simp_all

/-! ## C8: the JCL parser wrapper never propagates exceptions -/

/-- C8: `parse_jcl_file` always returns a dictionary whose status is success or
error; a missing file maps to error code FILE_NOT_FOUND, any other exception to
PARSING_ERROR; and the wrapper process exits with code 0 exactly when the
returned status is success. -/
theorem parse_jcl_file_contract (path : String) (body : TryResult) (ty m : String)
    (argv : List String) :
    (resultStatus (parse_jcl_file path body) = "success" ∨
      resultStatus (parse_jcl_file path body) = "error") ∧
    parse_jcl_file path (.raises .fileNotFound)
      = .error "FILE_NOT_FOUND" ("JCL file not found: " ++ path) ∧
    parse_jcl_file path (.raises (.other ty m)) = .error "PARSING_ERROR" m ∧
    ((wrapper_main argv body).2 = 0 ↔
      resultStatus (wrapper_main argv body).1 = "success") := by
  refine ⟨?_, rfl, rfl, ?_⟩
  · cases body with
    | ok j => simp [parse_jcl_file, resultStatus]
    | raises e => cases e <;> simp [parse_jcl_file, resultStatus]
  · unfold wrapper_main
    by_cases ha : argv.length < 2
    · simp [ha, resultStatus]
    · simp only [ha, if_false]
      by_cases hs : resultStatus (parse_jcl_file (argv.getD 1 "") body) = "success" <;>
        simp [hs]

/-! ## C4: PGM extraction is case-sensitive, with set semantics -/

/-- Every character of a maximal `[A-Z0-9]` run satisfies the class. -/
theorem takePgmRun_chars (s : List Char) : ∀ c ∈ (takePgmRun s).1, pgmChar c = true := by
  induction s with
  | nil => intro c hc; simp [takePgmRun] at hc
  | cons a t ih =>
    intro c hc
    by_cases h : pgmChar a = true
    · simp only [takePgmRun, h, if_true] at hc
      rcases List.mem_cons.mp hc with hc | hc
      · rw [hc]; exact h
      · exact ih c hc
    · simp only [takePgmRun, h, if_false] at hc
      simp at hc

/-- A successful `PGM=` match captures a nonempty token of `[A-Z0-9]` chars. -/
theorem matchPgmAt_sound {s : List Char} {p : String} {rest : List Char}
    (h : matchPgmAt s = some (p, rest)) :
    p.data ≠ [] ∧ ∀ c ∈ p.data, pgmChar c = true := by
  unfold matchPgmAt at h
  cases hm : matchLitCS "PGM=".data s with
  | none => rw [hm] at h; simp at h
  | some r =>
    rw [hm] at h
    cases r with
    | nil => simp at h
    | cons c cs =>
      by_cases hc : pgmChar c = true
      · simp only [hc, if_true] at h
        have hp : String.mk (c :: (takePgmRun cs).1) = p :=
          congrArg Prod.fst (Option.some.inj h)
        rw [← hp]
        refine ⟨by simp, ?_⟩
        intro x hx
        rcases List.mem_cons.mp hx with hx | hx
        · rw [hx]; exact hc
        · exact takePgmRun_chars cs x hx
      · simp [hc] at h

/-- Every string emitted by the PGM scanner is a nonempty `[A-Z0-9]` token. -/
theorem pgmScan_sound : ∀ (fuel : Nat) (s : List Char) (p : String),
    p ∈ pgmScan fuel s → p.data ≠ [] ∧ ∀ c ∈ p.data, pgmChar c = true := by
  intro fuel
  induction fuel with
  | zero => intro s p hp; simp [pgmScan] at hp
  | succ f ih =>
    intro s p hp
    cases s with
    | nil => simp [pgmScan] at hp
    | cons c cs =>
      rw [pgmScan] at hp
      cases hm : matchPgmAt (c :: cs) with
      | some pr =>
        obtain ⟨q, rest⟩ := pr
        rw [hm] at hp
        rcases List.mem_cons.mp hp with hp | hp
        · rw [hp]; exact matchPgmAt_sound hm
        · exact ih rest p hp
      | none =>
        rw [hm] at hp
        exact ih cs p hp

/-- C4 counterexample: the extraction regex `PGM=([A-Z0-9]+)` is compiled
without IGNORECASE, so the lowercase spelling of the same invocation marker is
not recognized at all instead of resolving to the same identifier. -/
theorem extract_pgm_case_counterexample :
    extract_pgm_from_jcl ("pgm=ab".data) = [] ∧
    extract_pgm_from_jcl ("PGM=AB".data) = ["AB"] := by
  refine ⟨by decide, by decide⟩

/-- C4 (amended): the extractor returns the deduplicated set of markers spelled
exactly as `PGM=` followed by uppercase letters and digits — matching is
case-sensitive, repeated identical markers appear once, and every returned
identifier consists only of `[A-Z0-9]` characters (so it is already
case-normalized). -/
theorem extract_pgm_set_semantics (text : List Char) :
    (extract_pgm_from_jcl text).Nodup ∧
    (∀ s : String, s ∈ extract_pgm_from_jcl text ↔ s ∈ pgmScan text.length text) ∧
    (∀ s ∈ extract_pgm_from_jcl text, s.data ≠ [] ∧ ∀ c ∈ s.data, pgmChar c = true) := by
  refine ⟨List.nodup_dedup _, fun s => List.mem_dedup, ?_⟩
  intro s hs
  exact pgmScan_sound _ _ s (List.mem_dedup.mp hs)

/-- Concrete instantiation of the amended C4 statement. -/
theorem extract_pgm_set_semantics_witness :
    (extract_pgm_from_jcl ("PGM=AB PGM=AB".data)).Nodup ∧
    (∀ s : String, s ∈ extract_pgm_from_jcl ("PGM=AB PGM=AB".data) ↔
      s ∈ pgmScan ("PGM=AB PGM=AB".data).length ("PGM=AB PGM=AB".data)) ∧
    (∀ s ∈ extract_pgm_from_jcl ("PGM=AB PGM=AB".data),
      s.data ≠ [] ∧ ∀ c ∈ s.data, pgmChar c = true) :=
  extract_pgm_set_semantics ("PGM=AB PGM=AB".data)

/-! ## C10: no dangling edges in the JSON dependency graph -/

/-- An id stays present when the node list grows. -/
theorem hasId_mono {ns ns2 : List DNode} (hsub : ∀ n, n ∈ ns → n ∈ ns2) {i : String}
    (h : hasId ns i) : hasId ns2 i := by
  obtain ⟨n, hn, hni⟩ := h
  exact ⟨n, hsub n hn, hni⟩

/-- Edge well-formedness is preserved when the node list grows. -/
theorem edgeOk_mono {ns ns2 : List DNode} (hsub : ∀ n, n ∈ ns → n ∈ ns2) {e : DEdge}
    (h : edgeOk ns e) : edgeOk ns2 e :=
  ⟨hasId_mono hsub h.1, hasId_mono hsub h.2⟩

/-- The inner JCL loop preserves edge well-formedness: given that the program
node id is already present and all accumulated edges are well formed, every
edge after the loop references ids of nodes after the loop. -/
theorem addJcls_edges_ok (prog : String) : ∀ (jcls : List String) (ns : List DNode)
    (es : List DEdge), hasId ns prog → (∀ e ∈ es, edgeOk ns e) →
    ∀ e ∈ (addJcls prog jcls ns es).2, edgeOk (addJcls prog jcls ns es).1 e := by
  intro jcls
  induction jcls with
  | nil =>
    intro ns es _ hinv e he
    simp only [addJcls] at he ⊢
    exact hinv e he
  | cons j rest ih =>
    intro ns es hp hinv e he
    by_cases hc : ns.any (fun n => n.id == jclId j) = true
    · rw [show addJcls prog (j :: rest) ns es
          = addJcls prog rest ns (es ++ [⟨jclId j, prog, "executes"⟩]) from by
        simp [addJcls, hc]] at he ⊢
      refine ih ns _ hp ?_ e he
      intro e2 he2
      rcases List.mem_append.mp he2 with h2 | h2
      · exact hinv e2 h2
      · have he2e : e2 = ⟨jclId j, prog, "executes"⟩ := by simpa using h2
        subst he2e
        obtain ⟨n, hn, hni⟩ := List.any_eq_true.mp hc
        exact ⟨⟨n, hn, by simpa using hni⟩, hp⟩
    · rw [show addJcls prog (j :: rest) ns es
          = addJcls prog rest (ns ++ [⟨jclId j, "jcl"⟩])
              (es ++ [⟨jclId j, prog, "executes"⟩]) from by
        simp [addJcls, hc]] at he ⊢
      have hsub : ∀ n : DNode, n ∈ ns → n ∈ ns ++ [⟨jclId j, "jcl"⟩] :=
        fun n hn => List.mem_append.mpr (Or.inl hn)
      refine ih _ _ (hasId_mono hsub hp) ?_ e he
      intro e2 he2
      rcases List.mem_append.mp he2 with h2 | h2
      · exact edgeOk_mono hsub (hinv e2 h2)
      · have he2e : e2 = ⟨jclId j, prog, "executes"⟩ := by simpa using h2
        subst he2e
        exact ⟨⟨⟨jclId j, "jcl"⟩, List.mem_append.mpr (Or.inr (by simp)), rfl⟩,
          hasId_mono hsub hp⟩

/-- The outer loop preserves edge well-formedness. -/
theorem genDepAux_edges_ok : ∀ (cbl : List (String × List String)) (ns : List DNode)
    (es : List DEdge), (∀ e ∈ es, edgeOk ns e) →
    ∀ e ∈ (genDepAux cbl ns es).2, edgeOk (genDepAux cbl ns es).1 e := by
  intro cbl
  induction cbl with
  | nil =>
    intro ns es hinv e he
    simp only [genDepAux] at he ⊢
    exact hinv e he
  | cons hd rest ih =>
    obtain ⟨p, jcls⟩ := hd
    intro ns es hinv e he
    rw [show genDepAux ((p, jcls) :: rest) ns es
        = genDepAux rest (addJcls p jcls (ns ++ [⟨p, "program"⟩]) es).1
            (addJcls p jcls (ns ++ [⟨p, "program"⟩]) es).2 from by
      simp [genDepAux]] at he ⊢
    have hsub : ∀ n : DNode, n ∈ ns → n ∈ ns ++ [⟨p, "program"⟩] :=
      fun n hn => List.mem_append.mpr (Or.inl hn)
    refine ih _ _ ?_ e he
    exact addJcls_edges_ok p jcls _ es
      ⟨⟨p, "program"⟩, List.mem_append.mpr (Or.inr (by simp)), rfl⟩
      (fun e2 he2 => edgeOk_mono hsub (hinv e2 he2))

/-- C10: in every graph produced from a mapping artifact no edge dangles —
each emitted edge's source id and target id both belong to some node in the
final node list. -/
theorem generate_dependency_graph_no_dangling (cbl : List (String × List String)) :
    ∀ e ∈ (generate_dependency_graph cbl).2, edgeOk (generate_dependency_graph cbl).1 e := by
  intro e he
  exact genDepAux_edges_ok cbl [] [] (by intro e2 he2; simp at he2) e he

/-- Concrete instantiation of C10 on a one-entry mapping. -/
theorem generate_dependency_graph_no_dangling_witness :
    (⟨"JOB1", "PROGA", "executes"⟩ : DEdge) ∈
      (generate_dependency_graph [("PROGA", ["JOB1.jcl"])]).2 ∧
    edgeOk (generate_dependency_graph [("PROGA", ["JOB1.jcl"])]).1
      ⟨"JOB1", "PROGA", "executes"⟩ :=
  ⟨by decide, generate_dependency_graph_no_dangling [("PROGA", ["JOB1.jcl"])]
    ⟨"JOB1", "PROGA", "executes"⟩ (by decide)⟩

/-! ## C5: node identity in the JSON dependency graph -/

/-- C5 counterexample: the JCL-node insertion check compares ids only, ignoring
the type tag, so a JCL file whose derived id equals an already-present program
node's id is suppressed entirely — the graph holds a single node and no
jcl-typed node at all, instead of two distinct typed nodes. -/
theorem genDep_jcl_node_suppressed_counterexample :
    generate_dependency_graph [("X", ["X.jcl"])]
      = ([⟨"X", "program"⟩], [⟨"X", "X", "executes"⟩]) ∧
    ¬ ∃ n ∈ (generate_dependency_graph [("X", ["X.jcl"])]).1, n.ty = "jcl" := by
  refine ⟨by decide, by decide⟩

/-- The inner JCL loop preserves pairwise (id, type) distinctness together with
any property of the ids of program-typed nodes (a JCL node is inserted only
when its id is fresh among all nodes, and it is never program-typed). -/
theorem addJcls_nodes_inv (prog : String) (P : String → Prop) :
    ∀ (jcls : List String) (ns : List DNode) (es : List DEdge),
    ns.Pairwise (fun a b => a.id ≠ b.id ∨ a.ty ≠ b.ty) →
    (∀ n ∈ ns, n.ty = "program" → P n.id) →
    (addJcls prog jcls ns es).1.Pairwise (fun a b => a.id ≠ b.id ∨ a.ty ≠ b.ty) ∧
    (∀ n ∈ (addJcls prog jcls ns es).1, n.ty = "program" → P n.id) := by
  intro jcls
  induction jcls with
  | nil =>
    intro ns es hpw hprog
    simpa only [addJcls] using ⟨hpw, hprog⟩
  | cons j rest ih =>
    intro ns es hpw hprog
    by_cases hc : ns.any (fun n => n.id == jclId j) = true
    · rw [show addJcls prog (j :: rest) ns es
          = addJcls prog rest ns (es ++ [⟨jclId j, prog, "executes"⟩]) from by
        simp [addJcls, hc]]
      exact ih ns _ hpw hprog
    · rw [show addJcls prog (j :: rest) ns es
          = addJcls prog rest (ns ++ [⟨jclId j, "jcl"⟩])
              (es ++ [⟨jclId j, prog, "executes"⟩]) from by
        simp [addJcls, hc]]
      have hfresh : ∀ n ∈ ns, n.id ≠ jclId j := by
        intro n hn
        have := List.any_eq_false.mp (Bool.not_eq_true _ ▸ hc) n hn
        simpa using this
      refine ih _ _ ?_ ?_
      · rw [List.pairwise_append]
        exact ⟨hpw, by simp, fun a ha b hb => Or.inl (by
          have hb2 : b = ⟨jclId j, "jcl"⟩ := by simpa using hb
          rw [hb2]
          exact hfresh a ha)⟩
      · intro n hn hty
        rcases List.mem_append.mp hn with hn | hn
        · exact hprog n hn hty
        · have hn2 : n = ⟨jclId j, "jcl"⟩ := by simpa using hn
          rw [hn2] at hty
          simp at hty

/-- The outer loop preserves pairwise (id, type) distinctness provided the
remaining program names are distinct and no existing program node carries one
of them. -/
theorem genDepAux_unique : ∀ (cbl : List (String × List String)) (ns : List DNode)
    (es : List DEdge), (cbl.map Prod.fst).Nodup →
    ns.Pairwise (fun a b => a.id ≠ b.id ∨ a.ty ≠ b.ty) →
    (∀ n ∈ ns, n.ty = "program" → n.id ∉ cbl.map Prod.fst) →
    (genDepAux cbl ns es).1.Pairwise (fun a b => a.id ≠ b.id ∨ a.ty ≠ b.ty) := by
  intro cbl
  induction cbl with
  | nil =>
    intro ns es _ hpw _
    simpa only [genDepAux] using hpw
  | cons hd rest ih =>
    obtain ⟨p, jcls⟩ := hd
    intro ns es hnd hpw hprog
    rw [show genDepAux ((p, jcls) :: rest) ns es
        = genDepAux rest (addJcls p jcls (ns ++ [⟨p, "program"⟩]) es).1
            (addJcls p jcls (ns ++ [⟨p, "program"⟩]) es).2 from by
      simp [genDepAux]]
    rw [List.map_cons, List.nodup_cons] at hnd
    obtain ⟨hpnotin, hndrest⟩ := hnd
    have hpw1 : (ns ++ [(⟨p, "program"⟩ : DNode)]).Pairwise
        (fun a b => a.id ≠ b.id ∨ a.ty ≠ b.ty) := by
      rw [List.pairwise_append]
      refine ⟨hpw, by simp, fun a ha b hb => ?_⟩
      have hb2 : b = ⟨p, "program"⟩ := by simpa using hb
      by_cases hta : a.ty = "program"
      · left
        rw [hb2]
        intro hid
        exact hprog a ha hta (by simp [hid])
      · right
        rw [hb2]
        exact hta
    have hprog1 : ∀ n ∈ ns ++ [(⟨p, "program"⟩ : DNode)], n.ty = "program" →
        n.id ∉ rest.map Prod.fst := by
      intro n hn hty
      rcases List.mem_append.mp hn with hn | hn
      · intro hmem
        exact hprog n hn hty (by simp [hmem])
      · have hn2 : n = ⟨p, "program"⟩ := by simpa using hn
        rw [hn2]
        exact hpnotin
    obtain ⟨hpw2, hprog2⟩ :=
      addJcls_nodes_inv p (fun i => i ∉ rest.map Prod.fst) jcls
        (ns ++ [⟨p, "program"⟩]) es hpw1 hprog1
    exact ih _ _ hndrest hpw2 hprog2

/-- C5 (amended): when the mapping's program entries carry pairwise-distinct
program names, no two nodes of the assembled graph share both the same id and
the same type tag.  However, the type tag does not participate in insertion
identity: a JCL node whose derived id coincides with any existing node's id is
suppressed rather than added as a distinct node (see the counterexample). -/
theorem genDep_id_type_unique (cbl : List (String × List String))
    (h : (cbl.map Prod.fst).Nodup) :
    (generate_dependency_graph cbl).1.Pairwise
      (fun a b => a.id ≠ b.id ∨ a.ty ≠ b.ty) := by
  exact genDepAux_unique cbl [] [] h (by simp) (by simp)

/-- Concrete instantiation of the amended C5 statement. -/
theorem genDep_id_type_unique_witness :
    ([("A", ["J.jcl"]), ("B", [])].map
        (Prod.fst (α := String) (β := List String))).Nodup ∧
    (generate_dependency_graph [("A", ["J.jcl"]), ("B", [])]).1.Pairwise
      (fun a b => a.id ≠ b.id ∨ a.ty ≠ b.ty) :=
  ⟨by decide, genDep_id_type_unique [("A", ["J.jcl"]), ("B", [])] (by decide)⟩

/-! ## C6: the property window of a file declaration -/

/-- A member of a dictionary after one insertion is either the inserted pair or
a pre-existing entry. -/
theorem mem_dictInsert {k : String} {v : FileInfo} {k0 : String} {v0 : FileInfo}
    {d : List (String × FileInfo)} (h : (k, v) ∈ dictInsert k0 v0 d) :
    (k = k0 ∧ v = v0) ∨ (k, v) ∈ d := by
  induction d with
  | nil =>
    left
    simpa [dictInsert] using h
  | cons hd t ih =>
    obtain ⟨k1, v1⟩ := hd
    by_cases he : k1 = k0
    · subst he
      simp only [dictInsert, if_true] at h
      rcases List.mem_cons.mp h with h | h
      · left
        obtain ⟨h1, h2⟩ := Prod.mk.injEq .. ▸ h
        exact ⟨h1, h2⟩
      · right
        exact List.mem_cons_of_mem _ h
    · simp only [dictInsert, he, if_false] at h
      rcases List.mem_cons.mp h with h | h
      · right
        exact List.mem_cons.mpr (Or.inl h)
      · rcases ih h with h2 | h2
        · left; exact h2
        · right; exact List.mem_cons_of_mem _ h2

/-- A member of the dictionary folded from a match list is produced by one of
the matches. -/
theorem mem_foldl_dictInsert (mk : String × String × List Char → FileInfo) :
    ∀ (l : List (String × String × List Char)) (acc : List (String × FileInfo))
    (k : String) (v : FileInfo),
    (k, v) ∈ l.foldl (fun d m => dictInsert m.1 (mk m) d) acc →
    (k, v) ∈ acc ∨ ∃ m ∈ l, k = m.1 ∧ v = mk m := by
  intro l
  induction l with
  | nil =>
    intro acc k v h
    exact Or.inl (by simpa using h)
  | cons m t ih =>
    intro acc k v h
    rw [List.foldl_cons] at h
    rcases ih _ k v h with h2 | h2
    · rcases mem_dictInsert h2 with ⟨hk, hv⟩ | h3
      · right
        exact ⟨m, List.mem_cons_self m t, hk, hv⟩
      · left
        exact h3
    · right
      obtain ⟨m2, hm2, hkv⟩ := h2
      exact ⟨m2, List.mem_cons_of_mem _ hm2, hkv⟩

/-- C6 counterexample: the window terminator is the case-sensitive literal
`SELECT` while declarations themselves match case-insensitively.  With a
lowercase second declaration, the first file's window runs past the next
declaration and picks up the second declaration's ORGANIZATION property, while
the spec-described declaration-bounded window would leave the SEQUENTIAL
default. -/
theorem window_case_sensitivity_counterexample :
    extract_files_from_cobol_text
        ("SELECT F1 ASSIGN TO A select F2 assign to B ORGANIZATION IS INDEXED".data)
      = [("F1", ⟨"A", "INDEXED", "SEQUENTIAL"⟩), ("F2", ⟨"B", "INDEXED", "SEQUENTIAL"⟩)] ∧
    extract_files_decl_window
        ("SELECT F1 ASSIGN TO A select F2 assign to B ORGANIZATION IS INDEXED".data)
      = [("F1", ⟨"A", "SEQUENTIAL", "SEQUENTIAL"⟩), ("F2", ⟨"B", "INDEXED", "SEQUENTIAL"⟩)] := by
  refine ⟨by decide, by decide⟩

/-- C6 (amended): each binding's organization and access mode are searched for
only in the window between the declaration and the next occurrence of the
case-sensitive literal `SELECT` (or the end of text) — not the next
declaration — and each property defaults to SEQUENTIAL when absent from that
window. -/
theorem binding_props_from_code_window (text : List Char) (name : String) (info : FileInfo)
    (h : (name, info) ∈ extract_files_from_cobol_text text) :
    ∃ tgt rest, (name, tgt, rest) ∈ selectScan text.length text ∧
      info.assign_to = tgt ∧
      info.organization = (searchOrg (sectionText rest)).getD "SEQUENTIAL" ∧
      info.access_mode = (searchAccess (sectionText rest)).getD "SEQUENTIAL" := by
  unfold extract_files_from_cobol_text at h
  rcases mem_foldl_dictInsert (fun m => fileInfoOf m.2.1 m.2.2) _ _ _ _ h with h2 | h2
  · simp at h2
  · obtain ⟨m, hm, hk, hv⟩ := h2
    refine ⟨m.2.1, m.2.2, ?_, ?_, ?_, ?_⟩
    · have hme : (name, m.2.1, m.2.2) = m := by rw [hk]
      rw [hme]
      exact hm
    · rw [hv]; rfl
    · rw [hv]; rfl
    · rw [hv]; rfl

/-- Concrete instantiation of the amended C6 statement. -/
theorem binding_props_from_code_window_witness :
    ("F1", (⟨"A", "SEQUENTIAL", "SEQUENTIAL"⟩ : FileInfo)) ∈
      extract_files_from_cobol_text ("SELECT F1 ASSIGN TO A".data) ∧
    ∃ tgt rest,
      ("F1", tgt, rest) ∈ selectScan ("SELECT F1 ASSIGN TO A".data).length
        ("SELECT F1 ASSIGN TO A".data) ∧
      (⟨"A", "SEQUENTIAL", "SEQUENTIAL"⟩ : FileInfo).assign_to = tgt ∧
      (⟨"A", "SEQUENTIAL", "SEQUENTIAL"⟩ : FileInfo).organization
        = (searchOrg (sectionText rest)).getD "SEQUENTIAL" ∧
      (⟨"A", "SEQUENTIAL", "SEQUENTIAL"⟩ : FileInfo).access_mode
        = (searchAccess (sectionText rest)).getD "SEQUENTIAL" :=
  ⟨by decide, binding_props_from_code_window ("SELECT F1 ASSIGN TO A".data) "F1"
    ⟨"A", "SEQUENTIAL", "SEQUENTIAL"⟩ (by decide)⟩

/-! ## C2: one `includes` edge per copybook occurrence, not per distinct pair -/

/-- Boolean form of left cancellation for string append. -/
theorem str_append_beq (s x y : String) : (s ++ x == s ++ y) = (x == y) := by
  by_cases h : x = y
  · subst h
    simp
  · have hne : s ++ x ≠ s ++ y := fun hc => h (str_append_left_cancel hc)
    simp [h, hne]

/-- C2 counterexample: a copybook listed twice yields two `includes` edge
statements for the same (Fragment, Program) pair — the emission loop does not
deduplicate. -/
theorem duplicate_includes_edges_counterexample :
    ((create_graph_from_aggregated_json "P" [] ["CPY1", "CPY1"] none).2.filter
        (fun e => e.src == "CPY_CPY1" && e.lab == "includes")).length = 2 := by
  decide

/-- C2 (amended): the graph contains exactly one `includes` edge per
*occurrence* of a fragment in the program's copybook list; a fragment included
twice produces two parallel `includes` edges. -/
theorem includes_edges_per_occurrence (p : String) (text : List Char) (cpys : List String)
    (jcl : Option String) (c : String) :
    ((create_graph_from_aggregated_json p text cpys jcl).2.filter
        (fun e => e.src == "CPY_" ++ c && e.lab == "includes")).length
      = (cpys.filter (fun x => x == c)).length := by
  have hin : List.filter (fun e : GEdge => e.src == "CPY_" ++ c && e.lab == "includes")
      ((inputFilesOf text).map
        (fun f => (⟨"FILE_IN_" ++ f.1, "PGM_" ++ p, "READ"⟩ : GEdge))) = [] := by
    refine List.filter_eq_nil_iff.mpr ?_
    intro e he
    obtain ⟨f, hf, rfl⟩ := List.mem_map.mp he
    simp
  have hout : List.filter (fun e : GEdge => e.src == "CPY_" ++ c && e.lab == "includes")
      ((outputFilesOf text).map
        (fun f => (⟨"PGM_" ++ p, "FILE_OUT_" ++ f.1, "WRITE"⟩ : GEdge))) = [] := by
    refine List.filter_eq_nil_iff.mpr ?_
    intro e he
    obtain ⟨f, hf, rfl⟩ := List.mem_map.mp he
    simp
  have hext : List.filter (fun e : GEdge => e.src == "CPY_" ++ c && e.lab == "includes")
      ((extendFilesOf text).map
        (fun f => (⟨"PGM_" ++ p, "FILE_EXT_" ++ f.1, "EXTEND"⟩ : GEdge))) = [] := by
    refine List.filter_eq_nil_iff.mpr ?_
    intro e he
    obtain ⟨f, hf, rfl⟩ := List.mem_map.mp he
    simp
  have hcpy : List.filter (fun e : GEdge => e.src == "CPY_" ++ c && e.lab == "includes")
      (cpys.map (fun x => (⟨"CPY_" ++ x, "PGM_" ++ p, "includes"⟩ : GEdge)))
      = (cpys.filter (fun x => x == c)).map
        (fun x => (⟨"CPY_" ++ x, "PGM_" ++ p, "includes"⟩ : GEdge)) := by
    rw [List.filter_map _ cpys]
    congr 1
    refine List.filter_congr ?_
    intro x hx
    simp [Function.comp, str_append_beq]
  cases jcl with
  | none =>
    simp only [create_graph_from_aggregated_json, List.filter_append, List.length_append,
      hin, hout, hext, hcpy, List.length_map, List.length_nil, List.filter_nil]
    omega
  | some j =>
    simp only [create_graph_from_aggregated_json, List.filter_append, List.length_append,
      hin, hout, hext, hcpy, List.length_map, List.length_nil]
    have hjcl : List.filter (fun e : GEdge => e.src == "CPY_" ++ c && e.lab == "includes")
        [(⟨"JCL_JOB", "PGM_" ++ p, "executes"⟩ : GEdge)] = [] := by
      refine List.filter_eq_nil_iff.mpr ?_
      intro e he
      have he2 : e = ⟨"JCL_JOB", "PGM_" ++ p, "executes"⟩ := by simpa using he
      subst he2
      simp
    rw [hjcl]
    simp

/-! ## C1: UNKNOWN direction suppresses the File node, not only the edge -/

/-- The inferred direction is always one of the four literal outcomes. -/
theorem extract_file_type_cases (text : List Char) (name : String) :
    extract_file_type_from_fd text name = "INPUT" ∨
    extract_file_type_from_fd text name = "OUTPUT" ∨
    extract_file_type_from_fd text name = "EXTEND" ∨
    extract_file_type_from_fd text name = "UNKNOWN" := by
  unfold extract_file_type_from_fd
  split_ifs <;> simp

/-- Membership in the INPUT partition forces the INPUT direction. -/
theorem mem_inputFilesOf {text : List Char} {f : String × FileInfo}
    (h : f ∈ inputFilesOf text) : extract_file_type_from_fd text f.1 = "INPUT" := by
  have := (List.mem_filter.mp h).2
  simpa using this

/-- Membership in the OUTPUT partition forces the OUTPUT direction. -/
theorem mem_outputFilesOf {text : List Char} {f : String × FileInfo}
    (h : f ∈ outputFilesOf text) : extract_file_type_from_fd text f.1 = "OUTPUT" := by
  have := (List.mem_filter.mp h).2
  simpa using this

/-- Membership in the EXTEND partition forces the EXTEND direction. -/
theorem mem_extendFilesOf {text : List Char} {f : String × FileInfo}
    (h : f ∈ extendFilesOf text) : extract_file_type_from_fd text f.1 = "EXTEND" := by
  have := (List.mem_filter.mp h).2
  simpa using this

/-- An INPUT-partition file's node is among the emitted nodes. -/
theorem file_in_node_mem (p : String) (text : List Char) (cpys : List String)
    (jcl : Option String) (f : String × FileInfo) (hf : f ∈ inputFilesOf text) :
    (⟨"FILE_IN_" ++ f.1⟩ : GNode) ∈ (create_graph_from_aggregated_json p text cpys jcl).1 := by
  cases jcl <;>
  · simp only [create_graph_from_aggregated_json, List.mem_append]
    exact Or.inl (Or.inl (Or.inl (Or.inl (Or.inr (List.mem_map.mpr ⟨f, hf, rfl⟩)))))

/-- An OUTPUT-partition file's node is among the emitted nodes. -/
theorem file_out_node_mem (p : String) (text : List Char) (cpys : List String)
    (jcl : Option String) (f : String × FileInfo) (hf : f ∈ outputFilesOf text) :
    (⟨"FILE_OUT_" ++ f.1⟩ : GNode) ∈ (create_graph_from_aggregated_json p text cpys jcl).1 := by
  cases jcl <;>
  · simp only [create_graph_from_aggregated_json, List.mem_append]
    exact Or.inl (Or.inl (Or.inl (Or.inr (List.mem_map.mpr ⟨f, hf, rfl⟩))))

/-- An EXTEND-partition file's node is among the emitted nodes. -/
theorem file_ext_node_mem (p : String) (text : List Char) (cpys : List String)
    (jcl : Option String) (f : String × FileInfo) (hf : f ∈ extendFilesOf text) :
    (⟨"FILE_EXT_" ++ f.1⟩ : GNode) ∈ (create_graph_from_aggregated_json p text cpys jcl).1 := by
  cases jcl <;>
  · simp only [create_graph_from_aggregated_json, List.mem_append]
    exact Or.inl (Or.inl (Or.inr (List.mem_map.mpr ⟨f, hf, rfl⟩)))

/-- C1 counterexample: a declared file with no OPEN statement has direction
UNKNOWN, and the emitted graph contains no node for it at all — only the
program node — although the declaration was extracted. -/
theorem unknown_direction_node_missing_counterexample :
    extract_files_from_cobol_text ("SELECT MYFILE ASSIGN TO DSN".data)
      = [("MYFILE", ⟨"DSN", "SEQUENTIAL", "SEQUENTIAL"⟩)] ∧
    extract_file_type_from_fd ("SELECT MYFILE ASSIGN TO DSN".data) "MYFILE" = "UNKNOWN" ∧
    create_graph_from_aggregated_json "P" ("SELECT MYFILE ASSIGN TO DSN".data) [] none
      = ([⟨"PGM_P"⟩], []) := by
  refine ⟨by decide, by decide, by decide⟩

/-- C1 (amended): for an extracted file declaration, a File node carrying one
of the three directional ids for that file name is emitted exactly when the
inferred direction is INPUT, OUTPUT or EXTEND — an UNKNOWN direction suppresses
the File node itself, not only the directional edge. -/
theorem file_node_iff_known_direction (p : String) (text : List Char)
    (cpys : List String) (jcl : Option String) (name : String) (info : FileInfo)
    (hmem : (name, info) ∈ extract_files_from_cobol_text text) :
    (∃ n ∈ (create_graph_from_aggregated_json p text cpys jcl).1,
        n.id = "FILE_IN_" ++ name ∨ n.id = "FILE_OUT_" ++ name ∨
          n.id = "FILE_EXT_" ++ name) ↔
      extract_file_type_from_fd text name ≠ "UNKNOWN" := by
  constructor
  · rintro ⟨n, hn, hid⟩
    have hsplit : n ∈
        ([(⟨"PGM_" ++ p⟩ : GNode)]
          ++ (inputFilesOf text).map (fun f => (⟨"FILE_IN_" ++ f.1⟩ : GNode))
          ++ (outputFilesOf text).map (fun f => (⟨"FILE_OUT_" ++ f.1⟩ : GNode))
          ++ (extendFilesOf text).map (fun f => (⟨"FILE_EXT_" ++ f.1⟩ : GNode))
          ++ cpys.map (fun c => (⟨"CPY_" ++ c⟩ : GNode))) ∨ n = ⟨"JCL_JOB"⟩ := by
      cases jcl with
      | none =>
        left
        have he : (create_graph_from_aggregated_json p text cpys none).1
            = ([(⟨"PGM_" ++ p⟩ : GNode)]
              ++ (inputFilesOf text).map (fun f => (⟨"FILE_IN_" ++ f.1⟩ : GNode))
              ++ (outputFilesOf text).map (fun f => (⟨"FILE_OUT_" ++ f.1⟩ : GNode))
              ++ (extendFilesOf text).map (fun f => (⟨"FILE_EXT_" ++ f.1⟩ : GNode))
              ++ cpys.map (fun c => (⟨"CPY_" ++ c⟩ : GNode))) ++ [] := rfl
        rw [he, List.append_nil] at hn
        exact hn
      | some j =>
        have he : (create_graph_from_aggregated_json p text cpys (some j)).1
            = ([(⟨"PGM_" ++ p⟩ : GNode)]
              ++ (inputFilesOf text).map (fun f => (⟨"FILE_IN_" ++ f.1⟩ : GNode))
              ++ (outputFilesOf text).map (fun f => (⟨"FILE_OUT_" ++ f.1⟩ : GNode))
              ++ (extendFilesOf text).map (fun f => (⟨"FILE_EXT_" ++ f.1⟩ : GNode))
              ++ cpys.map (fun c => (⟨"CPY_" ++ c⟩ : GNode)))
              ++ [(⟨"JCL_JOB"⟩ : GNode)] := rfl
        rw [he] at hn
        rcases List.mem_append.mp hn with hn | hn
        · left
          exact hn
        · right
          simpa using hn
    rcases hsplit with hb | hb
    · simp only [List.mem_append, List.mem_singleton, List.mem_map] at hb
      rcases hb with ((((hb | hb) | hb) | hb) | hb)
      · rw [hb] at hid
        rcases hid with hid | hid | hid <;>
          exact absurd hid (str_append_ne_of_getElem_ne _ _ _ _ 0
            (by decide) (by decide) (by decide))
      · obtain ⟨f, hf, hfe⟩ := hb
        rw [← hfe] at hid
        rcases hid with hid | hid | hid
        · have heq : f.1 = name := str_append_left_cancel hid
          have hty := mem_inputFilesOf hf
          rw [heq] at hty
          rw [hty]
          simp
        · exact absurd hid (str_append_ne_of_getElem_ne _ _ _ _ 5
            (by decide) (by decide) (by decide))
        · exact absurd hid (str_append_ne_of_getElem_ne _ _ _ _ 5
            (by decide) (by decide) (by decide))
      · obtain ⟨f, hf, hfe⟩ := hb
        rw [← hfe] at hid
        rcases hid with hid | hid | hid
        · exact absurd hid (str_append_ne_of_getElem_ne _ _ _ _ 5
            (by decide) (by decide) (by decide))
        · have heq : f.1 = name := str_append_left_cancel hid
          have hty := mem_outputFilesOf hf
          rw [heq] at hty
          rw [hty]
          simp
        · exact absurd hid (str_append_ne_of_getElem_ne _ _ _ _ 5
            (by decide) (by decide) (by decide))
      · obtain ⟨f, hf, hfe⟩ := hb
        rw [← hfe] at hid
        rcases hid with hid | hid | hid
        · exact absurd hid (str_append_ne_of_getElem_ne _ _ _ _ 5
            (by decide) (by decide) (by decide))
        · exact absurd hid (str_append_ne_of_getElem_ne _ _ _ _ 5
            (by decide) (by decide) (by decide))
        · have heq : f.1 = name := str_append_left_cancel hid
          have hty := mem_extendFilesOf hf
          rw [heq] at hty
          rw [hty]
          simp
      · obtain ⟨c, hc, hce⟩ := hb
        rw [← hce] at hid
        rcases hid with hid | hid | hid <;>
          exact absurd hid (str_append_ne_of_getElem_ne _ _ _ _ 0
            (by decide) (by decide) (by decide))
    · rw [hb] at hid
      rw [show (⟨"JCL_JOB"⟩ : GNode).id = "JCL_JOB" ++ "" from
        (String.append_empty "JCL_JOB").symm] at hid
      rcases hid with hid | hid | hid <;>
        exact absurd hid (str_append_ne_of_getElem_ne _ _ _ _ 0
          (by decide) (by decide) (by decide))
  · intro hty
    rcases extract_file_type_cases text name with h | h | h | h
    · refine ⟨⟨"FILE_IN_" ++ name⟩, ?_, Or.inl rfl⟩
      exact file_in_node_mem p text cpys jcl (name, info)
        (List.mem_filter.mpr ⟨hmem, by simp [h]⟩)
    · refine ⟨⟨"FILE_OUT_" ++ name⟩, ?_, Or.inr (Or.inl rfl)⟩
      exact file_out_node_mem p text cpys jcl (name, info)
        (List.mem_filter.mpr ⟨hmem, by simp [h]⟩)
    · refine ⟨⟨"FILE_EXT_" ++ name⟩, ?_, Or.inr (Or.inr rfl)⟩
      exact file_ext_node_mem p text cpys jcl (name, info)
        (List.mem_filter.mpr ⟨hmem, by simp [h]⟩)
    · exact absurd h hty

/-- Concrete instantiation of the amended C1 statement. -/
theorem file_node_iff_known_direction_witness :
    ("F1", (⟨"A.", "SEQUENTIAL", "SEQUENTIAL"⟩ : FileInfo)) ∈
      extract_files_from_cobol_text ("SELECT F1 ASSIGN TO A. OPEN INPUT F1.".data) ∧
    ((∃ n ∈ (create_graph_from_aggregated_json "P"
          ("SELECT F1 ASSIGN TO A. OPEN INPUT F1.".data) [] none).1,
        n.id = "FILE_IN_" ++ "F1" ∨ n.id = "FILE_OUT_" ++ "F1" ∨
          n.id = "FILE_EXT_" ++ "F1") ↔
      extract_file_type_from_fd ("SELECT F1 ASSIGN TO A. OPEN INPUT F1.".data) "F1"
        ≠ "UNKNOWN") :=
  ⟨by decide, file_node_iff_known_direction "P"
    ("SELECT F1 ASSIGN TO A. OPEN INPUT F1.".data) [] none "F1"
    ⟨"A.", "SEQUENTIAL", "SEQUENTIAL"⟩ (by decide)⟩
